import Mathlib

/-!
Verification development for the legal-letter-generator RAG core
(`backend/app/rag_system.py` and `backend/app/pdf_processor.py`).

Modelling conventions:
* Python strings are lists of characters (`Str := List Char`).
* Python floats are idealized as rational numbers (`ℚ`); the FAISS padding
  sentinel `FLT_MAX` is the exact rational `2^128 - 2^104`.
* External libraries consumed by the code (faiss `IndexFlatL2`,
  langchain `RecursiveCharacterTextSplitter`, `str` methods) are embedded
  from their documented contracts and reference implementations.
* Stateful methods of `RAGSystem` are explicit state-passing functions on
  `RAGState`; Python exceptions become `Except` errors.
-/

namespace LegalRAG

/-- Python strings are modelled as lists of characters. -/
abbrev Str := List Char

/-- Character list of a Lean string literal, for concrete examples. -/
def strOf (s : String) : Str := s.data

/-- Default whitespace characters stripped by Python `str.strip()`. -/
def isWsChar (c : Char) : Bool :=
  c = ' ' || c = '\t' || c = '\n' || c = '\r' || c = '\x0b' || c = '\x0c'

/-- Python `s.strip()`: remove leading and trailing whitespace. -/
def pyStrip (s : Str) : Str :=
  ((s.dropWhile isWsChar).reverse.dropWhile isWsChar).reverse

/-- The first element surviving `dropWhile p` fails `p`. -/
theorem dropWhile_head_false {p : Char → Bool} {l : Str} {c : Char} {cs : Str}
    (h : l.dropWhile p = c :: cs) : p c = false := by
  induction l with
  | nil => simp [List.dropWhile] at h
  | cons a t ih =>
    by_cases hp : p a
    · exact ih (by simpa [List.dropWhile, hp] using h)
    · simp only [List.dropWhile, hp] at h
      cases h
      simpa using hp

/-- `pyStrip s` is a prefix of `s.dropWhile isWsChar`. -/
theorem pyStrip_prefix (s : Str) : pyStrip s <+: s.dropWhile isWsChar := by
  unfold pyStrip
  have h1 : (s.dropWhile isWsChar).reverse.dropWhile isWsChar <:+
      (s.dropWhile isWsChar).reverse := List.dropWhile_suffix _
  have h2 := (@List.reverse_suffix Char
    (((s.dropWhile isWsChar).reverse.dropWhile isWsChar).reverse)
    (s.dropWhile isWsChar)).mp (by simpa using h1)
  exact h2

/-- A non-empty stripped string starts with a non-whitespace character. -/
theorem pyStrip_head_not_ws {s : Str} {c : Char} {cs : Str}
    (h : pyStrip s = c :: cs) : isWsChar c = false := by
  have hp := pyStrip_prefix s
  rw [h] at hp
  obtain ⟨t, ht⟩ := hp
  exact dropWhile_head_false ht.symm

/-- If stripping yields the empty string, every character was whitespace. -/
theorem pyStrip_eq_nil {s : Str} (h : pyStrip s = []) :
    ∀ c ∈ s, isWsChar c = true := by
  unfold pyStrip at h
  have h1 : (s.dropWhile isWsChar).reverse.dropWhile isWsChar = [] := by
    have := congrArg List.reverse h
    simpa using this
  have h2 : ∀ c ∈ (s.dropWhile isWsChar).reverse, isWsChar c = true :=
    (List.dropWhile_eq_nil_iff).mp h1
  have h3 : ∀ c ∈ s.dropWhile isWsChar, isWsChar c = true := by
    intro c hc
    exact h2 c (by simpa using hc)
  intro c hc
  rw [← List.takeWhile_append_dropWhile (p := isWsChar) (l := s)] at hc
  rcases List.mem_append.mp hc with htk | hdr
  · exact List.mem_takeWhile_imp htk
  · exact h3 c hdr

/-- A string containing a non-whitespace character strips to a non-empty string. -/
theorem pyStrip_ne_nil {s : Str} {c : Char} (hc : c ∈ s)
    (hw : isWsChar c = false) : pyStrip s ≠ [] := by
  intro h
  have := pyStrip_eq_nil h c hc
  rw [this] at hw
  exact absurd hw (by simp)

/-- Stripping never lengthens a string. -/
theorem pyStrip_length_le (s : Str) : (pyStrip s).length ≤ s.length := by
  unfold pyStrip
  calc ((s.dropWhile isWsChar).reverse.dropWhile isWsChar).reverse.length
      = ((s.dropWhile isWsChar).reverse.dropWhile isWsChar).length := by
        rw [List.length_reverse]
    _ ≤ (s.dropWhile isWsChar).reverse.length :=
        (List.dropWhile_sublist _).length_le
    _ = (s.dropWhile isWsChar).length := by rw [List.length_reverse]
    _ ≤ s.length := (List.dropWhile_sublist _).length_le

/-- Python `content.split('\n')` (`pdf_processor.py` line 55). -/
def splitNewlines : Str → List Str
  | [] => [[]]
  | c :: rest =>
    match splitNewlines rest with
    | [] => [[c]]
    | h :: t => if c = '\n' then [] :: h :: t else (c :: h) :: t

/-- Model of Python `str.isupper` over ASCII letters: at least one cased
character and no lowercase one. -/
def pyIsUpper (s : Str) : Bool :=
  s.any Char.isUpper && !(s.any Char.isLower)

/-- Heading detection of `PDFProcessor.extract_sections`
(`pdf_processor.py` lines 63-66). -/
def isHeadingLine (line : Str) : Bool :=
  (strOf "Section").isPrefixOf line ||
  (strOf "Article").isPrefixOf line ||
  (strOf "Chapter").isPrefixOf line ||
  (pyIsUpper line && decide (line.length < 100))

/-- A page of extracted text (`extract_text_by_pages` output record). -/
structure Page where
  page_number : Nat
  content : Str
deriving DecidableEq

/-- A structured legal section (`extract_sections` output record). -/
structure SectionRec where
  section_title : Str
  content : Str
  page_number : Nat
deriving DecidableEq

/-- Loop state of `extract_sections`: the current section title, the
accumulated body text, and the sections emitted so far. -/
structure ExtState where
  current_section : Str
  current_content : Str
  sections : List SectionRec
deriving DecidableEq

/-- One iteration of the inner line loop of `extract_sections`
(`pdf_processor.py` lines 57-79). -/
def processLine (page_number : Nat) (st : ExtState) (rawLine : Str) : ExtState :=
  let line := pyStrip rawLine
  if line = [] then st
  else if isHeadingLine line then
    let secs :=
      if st.current_section = [] ∨ st.current_content = [] then st.sections
      else st.sections ++
        [{ section_title := st.current_section,
           content := pyStrip st.current_content,
           page_number := page_number }]
    { current_section := line, current_content := [], sections := secs }
  else
    { st with current_content := st.current_content ++ line ++ [' '] }

/-- One iteration of the page loop of `extract_sections`: the page's content
has already been split into lines. -/
def processPage (st : ExtState) (pg : Nat × List Str) : ExtState :=
  pg.2.foldl (processLine pg.1) st

/-- `pages_data[-1]["page_number"] if pages_data else 1` (line 86). -/
def lastPageNumber (pages : List Page) : Nat :=
  match pages.getLast? with
  | some p => p.page_number
  | none => 1

/-- Line-level body of `extract_sections`: fold over all pages, then flush
the last open section (`pdf_processor.py` lines 50-89). -/
def extractSectionsLines (lastPage : Nat) (pagesLines : List (Nat × List Str)) :
    List SectionRec :=
  let st := pagesLines.foldl processPage ⟨[], [], []⟩
  if st.current_section = [] ∨ st.current_content = [] then st.sections
  else st.sections ++
    [{ section_title := st.current_section,
       content := pyStrip st.current_content,
       page_number := lastPage }]

/-- `PDFProcessor.extract_sections` (`pdf_processor.py` lines 45-89). -/
def extract_sections (pages : List Page) : List SectionRec :=
  extractSectionsLines (lastPageNumber pages)
    (pages.map fun p => (p.page_number, splitNewlines p.content))

/-!
Model of langchain's `RecursiveCharacterTextSplitter` as configured in
`RAGSystem.__init__` (`rag_system.py` lines 24-28): `chunk_size=1000`,
`chunk_overlap=200`, `length_function=len`, and the library defaults
`separators=["\n\n", "\n", " ", ""]`, `keep_separator=True`,
`is_separator_regex=False`, `strip_whitespace=True`.
-/

/-- Index of the leftmost occurrence of `sep` in `s`
(`re.search` on an escaped literal separator). -/
def findSub (sep : Str) : Str → Option Nat
  | [] => if sep = [] then some 0 else none
  | c :: rest =>
    if sep.isPrefixOf (c :: rest) then some 0
    else (findSub sep rest).map (· + 1)

/-- Whether `sep` occurs in `s` (Python `sep in text` via `re.search`). -/
def containsSub (sep s : Str) : Bool := (findSub sep s).isSome

theorem findSub_decomp {sep : Str} : ∀ {s : Str} {i : Nat},
    findSub sep s = some i →
    s.take i ++ sep ++ s.drop (i + sep.length) = s := by
  intro s
  induction s with
  | nil =>
    intro i h
    by_cases hsep : sep = []
    · subst hsep
      simp only [findSub, if_pos rfl, Option.some.injEq] at h
      simp [← h]
    · simp [findSub, hsep] at h
  | cons c rest ih =>
    intro i h
    simp only [findSub] at h
    by_cases hpre : sep.isPrefixOf (c :: rest)
    · simp only [hpre, if_pos, Option.some.injEq] at h
      subst h
      obtain ⟨t, ht⟩ := List.isPrefixOf_iff_prefix.mp hpre
      simp only [List.take_zero, List.nil_append, Nat.zero_add]
      calc sep ++ (c :: rest).drop sep.length
          = sep ++ (sep ++ t).drop sep.length := by rw [ht]
        _ = sep ++ t := by rw [List.drop_left]
        _ = c :: rest := ht
    · simp only [if_neg hpre] at h
      rcases Option.map_eq_some'.mp h with ⟨j, hj, hij⟩
      subst hij
      have := ih hj
      calc (c :: rest).take (j + 1) ++ sep ++
            (c :: rest).drop (j + 1 + sep.length)
          = c :: (rest.take j ++ sep ++ rest.drop (j + sep.length)) := by
            simp [List.take_cons, Nat.add_right_comm j 1 sep.length,
              List.cons_append]
        _ = c :: rest := by rw [this]

theorem findSub_some_bound {sep s : Str} {i : Nat} (hsep : sep ≠ [])
    (h : findSub sep s = some i) : i + sep.length ≤ s.length ∧ s ≠ [] := by
  have hd := findSub_decomp h
  have hs1 : 1 ≤ sep.length := by
    cases sep with
    | nil => exact absurd rfl hsep
    | cons a t => simp
  constructor
  · have := congrArg List.length hd
    simp only [List.length_append, List.length_take, List.length_drop] at this
    omega
  · intro hnil
    subst hnil
    simp [findSub, hsep] at h

/-- Python `re.split` on a non-empty literal separator: the pieces of `s`
between the leftmost-first occurrences of `sep`. -/
def splitOnSub (sep : Str) (s : Str) : List Str :=
  if hsep : sep = [] then [s]
  else
    match hf : findSub sep s with
    | none => [s]
    | some i => s.take i :: splitOnSub sep (s.drop (i + sep.length))
termination_by s.length
decreasing_by
  have hb := findSub_some_bound hsep hf
  have : sep.length ≥ 1 := by
    cases sep with
    | nil => exact absurd rfl hsep
    | cons a t => simp
  simp only [List.length_drop]
  omega

/-- `_split_text_with_regex(text, separator, keep_separator=True)`:
for a non-empty separator the separator is reattached to the front of the
following piece, for the empty separator the text is split into single
characters; empty strings are removed. -/
def splitWithSep (sep : Str) (text : Str) : List Str :=
  let splits :=
    if sep = [] then text.map (fun c => [c])
    else
      match splitOnSub sep text with
      | [] => []
      | p :: ps => p :: ps.map (fun q => sep ++ q)
  splits.filter (fun s => !s.isEmpty)

/-- The `while` loop of `TextSplitter._merge_splits` that pops splits from
the front of `current_doc` until the running total respects the overlap
bound and the incoming split fits. On an empty buffer the loop condition
is necessarily false (the total is 0 there), so the empty case returns
unchanged. -/
def mergePop (cs co sl dl : Nat) : List Str → Nat → List Str × Nat
  | [], total => ([], total)
  | d :: rest, total =>
    if total > co ∨
        (total + dl + (if (d :: rest).length > 0 then sl else 0) > cs ∧
          total > 0) then
      mergePop cs co sl dl rest
        (total - (d.length + if rest.length > 0 then sl else 0))
    else (d :: rest, total)

/-- `TextSplitter._join_docs`: join with the separator, strip whitespace,
drop the chunk if it is empty. -/
def joinDocs (sep : Str) (docs : List Str) : Option Str :=
  let text := pyStrip ((docs.intersperse sep).flatten)
  if text = [] then none else some text

/-- Loop state of `TextSplitter._merge_splits`. -/
structure MergeSt where
  docs : List Str
  current_doc : List Str
  total : Nat
deriving DecidableEq

/-- One iteration of the `for d in splits` loop of
`TextSplitter._merge_splits`. -/
def mergeStep (cs co : Nat) (sep : Str) (st : MergeSt) (d : Str) : MergeSt :=
  let dl := d.length
  let sl := sep.length
  let st1 :=
    if st.total + dl + (if st.current_doc.length > 0 then sl else 0) > cs then
      if st.current_doc.length > 0 then
        let docs' := st.docs ++ (joinDocs sep st.current_doc).toList
        let pr := mergePop cs co sl dl st.current_doc st.total
        { docs := docs', current_doc := pr.1, total := pr.2 }
      else st
    else st
  { docs := st1.docs,
    current_doc := st1.current_doc ++ [d],
    total := st1.total + dl +
      (if st1.current_doc.length > 0 then sl else 0) }

/-- `TextSplitter._merge_splits(splits, separator)`. -/
def mergeSplits (cs co : Nat) (sep : Str) (splits : List Str) : List Str :=
  let st := splits.foldl (mergeStep cs co sep) ⟨[], [], 0⟩
  st.docs ++ (joinDocs sep st.current_doc).toList

/-- Separator-selection loop at the top of
`RecursiveCharacterTextSplitter._split_text`: the first separator that is
empty or occurs in the text is chosen, together with the remaining
separators. -/
def chooseSepLoop : List Str → Str → Option (Str × List Str)
  | [], _ => none
  | s :: rest, text =>
    if s = [] then some ([], [])
    else if containsSub s text then some (s, rest)
    else chooseSepLoop rest text

/-- Chosen separator and `new_separators`; if no separator matches, the
last separator is kept with no remaining ones. -/
def chooseSep (seps : List Str) (text : Str) : Str × List Str :=
  (chooseSepLoop seps text).getD (seps.getLastD [], [])

theorem chooseSepLoop_length : ∀ {seps : List Str} {text sp : Str}
    {ns : List Str}, chooseSepLoop seps text = some (sp, ns) →
    ns.length < seps.length := by
  intro seps
  induction seps with
  | nil => intro text sp ns h; simp [chooseSepLoop] at h
  | cons s rest ih =>
    intro text sp ns h
    simp only [chooseSepLoop] at h
    split at h
    · simp only [Option.some.injEq, Prod.mk.injEq] at h
      simp [← h.2]
    · split at h
      · simp only [Option.some.injEq, Prod.mk.injEq] at h
        simp [← h.2]
      · exact Nat.lt_succ_of_lt (ih h)

theorem chooseSepLoop_empty_mem : ∀ {seps : List Str} {text sp : Str}
    {ns : List Str}, chooseSepLoop seps text = some (sp, ns) →
    [] ∈ seps → sp = [] ∨ [] ∈ ns := by
  intro seps
  induction seps with
  | nil => intro text sp ns h; simp [chooseSepLoop] at h
  | cons s rest ih =>
    intro text sp ns h hmem
    simp only [chooseSepLoop] at h
    split at h
    · simp only [Option.some.injEq, Prod.mk.injEq] at h
      exact Or.inl h.1.symm
    · rename_i hs
      have hrest : [] ∈ rest := by
        rcases List.mem_cons.mp hmem with h1 | h1
        · exact absurd h1.symm hs
        · exact h1
      split at h
      · simp only [Option.some.injEq, Prod.mk.injEq] at h
        exact Or.inr (h.2 ▸ hrest)
      · exact ih h hrest

theorem chooseSepLoop_isSome {seps : List Str} (text : Str)
    (hmem : [] ∈ seps) : (chooseSepLoop seps text).isSome := by
  induction seps with
  | nil => simp at hmem
  | cons s rest ih =>
    by_cases hs : s = []
    · simp [chooseSepLoop, hs]
    · by_cases hc : containsSub s text
      · simp [chooseSepLoop, hs, hc]
      · have hgoal : chooseSepLoop (s :: rest) text = chooseSepLoop rest text := by
          simp [chooseSepLoop, hs, hc]
        rw [hgoal]
        apply ih
        rcases List.mem_cons.mp hmem with h1 | h1
        · exact absurd h1.symm hs
        · exact h1

/-- `RecursiveCharacterTextSplitter._split_text(text, separators)`: choose
a separator, split, merge the small pieces, and recurse on the remaining
separators for oversized pieces (the merge separator is `""` because
`keep_separator=True`). -/
def splitTextAux (cs co : Nat) (seps : List Str) (text : Str) : List Str :=
  let pr := chooseSep seps text
  let splits := splitWithSep pr.1 text
  let res := splits.foldl
    (fun (acc : List Str × List Str) s =>
      if s.length < cs then (acc.1, acc.2 ++ [s])
      else
        let fin := acc.1 ++
          (if acc.2.length > 0 then mergeSplits cs co [] acc.2 else [])
        if h : pr.2 = [] then (fin ++ [s], [])
        else (fin ++ splitTextAux cs co pr.2 s, []))
    ([], [])
  res.1 ++ (if res.2.length > 0 then mergeSplits cs co [] res.2 else [])
termination_by seps.length
decreasing_by
  show (chooseSep seps text).2.length < seps.length
  have h2 : ¬ (chooseSep seps text).2 = [] := h
  unfold chooseSep at h2 ⊢
  cases hl : chooseSepLoop seps text with
  | none => rw [hl] at h2; simp at h2
  | some v =>
    rw [hl] at h2
    simp only [Option.getD_some] at h2 ⊢
    exact chooseSepLoop_length
      (show chooseSepLoop seps text = some (v.1, v.2) by rw [hl])

/-- `RAGSystem.text_splitter.split_text` with the repository's
configuration (`rag_system.py` lines 24-28 and 36). -/
def split_text (text : Str) : List Str :=
  splitTextAux 1000 200 [strOf "\n\n", strOf "\n", strOf " ", []] text

/-!
Model of the `RAGSystem` class (`rag_system.py`). Embedding vectors are
rational-number lists; the sentence-transformer encoder and the LLM are
external capabilities, passed in as function parameters. Python
exceptions become `Except` errors.
-/

/-- A document chunk record built by `RAGSystem.process_documents`
(`rag_system.py` lines 38-44). -/
structure Chunk where
  content : Str
  section_title : Str
  page_number : Nat
  chunk_id : Str
deriving DecidableEq

/-- Embedding vectors: float arrays idealized as rational-number lists. -/
abbrev Vec := List ℚ

/-- Squared Euclidean (L2) distance, the metric of `faiss.IndexFlatL2`. -/
def dist2 (u v : Vec) : ℚ := (List.zipWith (fun a b => (a - b) ^ 2) u v).sum

/-- `FLT_MAX` (`2^128 - 2^104`), the distance faiss reports on the padding
entries returned when `k` exceeds the number of indexed vectors. -/
def fltMax : ℚ := 2 ^ 128 - 2 ^ 104

/-- Model of a `faiss.IndexFlatL2` instance: the vector dimension and the
stored vectors in insertion order (slot `i` is the `i`-th vector). -/
structure FaissIndex where
  d : Nat
  xb : List Vec
deriving DecidableEq

/-- Number of indexed vectors. -/
def FaissIndex.ntotal (ix : FaissIndex) : Nat := ix.xb.length

/-- Ordering on (distance, slot) pairs: ascending distance, ties broken by
the lower slot index. -/
def distSlotLe (a b : ℚ × Int) : Prop :=
  a.1 < b.1 ∨ (a.1 = b.1 ∧ a.2 ≤ b.2)

instance : DecidableRel distSlotLe := fun a b => by
  unfold distSlotLe; infer_instance

instance : IsTotal (ℚ × Int) distSlotLe := by
  constructor
  intro a b
  rcases lt_trichotomy a.1 b.1 with h | h | h
  · exact Or.inl (Or.inl h)
  · rcases le_total a.2 b.2 with h2 | h2
    · exact Or.inl (Or.inr ⟨h, h2⟩)
    · exact Or.inr (Or.inr ⟨h.symm, h2⟩)
  · exact Or.inr (Or.inl h)

instance : IsTrans (ℚ × Int) distSlotLe := by
  constructor
  intro a b c hab hbc
  rcases hab with h1 | ⟨h1, h1'⟩ <;> rcases hbc with h2 | ⟨h2, h2'⟩
  · exact Or.inl (h1.trans h2)
  · exact Or.inl (h2 ▸ h1)
  · exact Or.inl (h1 ▸ h2)
  · exact Or.inr ⟨h1.trans h2, h1'.trans h2'⟩

/-- The (distance, slot) pair of every stored vector for a query. -/
def scoredOf (ix : FaissIndex) (q : Vec) : List (ℚ × Int) :=
  ix.xb.enum.map (fun p => (dist2 q p.2, (p.1 : Int)))

/-- Model of `faiss.IndexFlatL2.search` on one query, from the faiss
contract: the `k` nearest stored vectors by squared L2 distance in
ascending order (ties deterministically by lower slot), padded with
`(FLT_MAX, -1)` entries when `k` exceeds `ntotal`. Returned as
(distance, slot) pairs. -/
def FaissIndex.searchPairs (ix : FaissIndex) (q : Vec) (k : Nat) :
    List (ℚ × Int) :=
  let top := (List.insertionSort distSlotLe (scoredOf ix q)).take k
  top ++ List.replicate (k - top.length) (fltMax, -1)

/-- Mutable state of a `RAGSystem` instance: `self.vector_store`
(`None` until built or loaded) and `self.documents`. -/
structure RAGState where
  vector_store : Option FaissIndex
  documents : List Chunk
deriving DecidableEq

/-- State after `RAGSystem.__init__` (`rag_system.py` lines 15-28). -/
def initState : RAGState := { vector_store := none, documents := [] }

/-- Python exceptions raised by `RAGSystem` methods. -/
inductive RAGError where
  /-- `ValueError("No documents processed. ...")` (line 53). -/
  | noDocuments
  /-- `ValueError("Vector store not initialized")` (line 100); the spec
  calls this condition `RetrievalError`. -/
  | vectorStoreMissing
  /-- `TypeError` from `faiss.write_index` on a `None` index (line 73). -/
  | writeTypeError
  /-- `IndexError` from `self.documents[idx]` (line 114). -/
  | documentsIndexError
deriving DecidableEq

/-- Decimal digits of a natural number, for the `f"..._{i}"` chunk id. -/
def natDigits (n : Nat) : Str := Nat.toDigits 10 n

/-- One chunk record of `process_documents`
(`rag_system.py` lines 38-44). -/
def mkChunkRec (sec : SectionRec) (i : Nat) (c : Str) : Chunk :=
  { content := c,
    section_title := sec.section_title,
    page_number := sec.page_number,
    chunk_id := sec.section_title ++ '_' :: natDigits i }

/-- `RAGSystem.process_documents(sections)` (`rag_system.py` lines 30-48):
returns the chunk list and the updated state (the corpus is replaced by
`self.documents = all_chunks`). -/
def process_documents (st : RAGState) (sections : List SectionRec) :
    List Chunk × RAGState :=
  let all_chunks := sections.foldl
    (fun acc sec =>
      (split_text sec.content).enum.foldl
        (fun acc2 p => acc2 ++ [mkChunkRec sec p.1 p.2]) acc)
    []
  (all_chunks, { st with documents := all_chunks })

/-- `RAGSystem.create_vector_store()` (`rag_system.py` lines 50-66);
`encode` is the sentence-transformer embedding capability. -/
def create_vector_store (encode : Str → Vec) (st : RAGState) :
    Except RAGError RAGState :=
  if st.documents = [] then .error .noDocuments
  else
    let embeddings := (st.documents.map (·.content)).map encode
    let ix : FaissIndex := { d := (embeddings.headD []).length, xb := embeddings }
    .ok { st with vector_store := some ix }

/-- The two artifacts persisted under one path: `faiss_index` and
`documents.pkl`; `none` models a missing or unreadable file. -/
structure Storage where
  faiss_index : Option FaissIndex
  documents_pkl : Option (List Chunk)
deriving DecidableEq

/-- `RAGSystem.save_vector_store(path)` (`rag_system.py` lines 68-79):
writes both artifacts; `faiss.write_index(None, ...)` raises. -/
def save_vector_store (st : RAGState) : Except RAGError Storage :=
  match st.vector_store with
  | none => .error .writeTypeError
  | some ix => .ok { faiss_index := some ix, documents_pkl := some st.documents }

/-- `RAGSystem.load_vector_store(path)` (`rag_system.py` lines 81-95):
reads the index, then the documents; any exception is caught and `False`
is returned (with whatever assignments already happened kept). -/
def load_vector_store (stg : Storage) (st : RAGState) : Bool × RAGState :=
  match stg.faiss_index with
  | none => (false, st)
  | some ix =>
    let st1 := { st with vector_store := some ix }
    match stg.documents_pkl with
    | none => (false, st1)
    | some docs => (true, { st1 with documents := docs })

/-- A retrieval result: a copy of the stored chunk record plus the added
`similarity_score` key (`rag_system.py` lines 114-116). -/
structure RetDoc where
  doc : Chunk
  similarity_score : ℚ
deriving DecidableEq

/-- Python list subscription `l[i]`, including negative-index wraparound;
`none` models an `IndexError`. -/
def pyGet (l : List Chunk) (i : Int) : Option Chunk :=
  if 0 ≤ i ∧ i < l.length then l.get? i.toNat
  else if -(l.length : Int) ≤ i ∧ i < 0 then l.get? ((l.length : Int) + i).toNat
  else none

/-- The result-collection loop of `similarity_search`
(`rag_system.py` lines 111-116): slots `< len(documents)` are resolved
with Python indexing (so `-1` wraps to the last chunk) and paired with
their distances; others are skipped. -/
def retLoop (documents : List Chunk) :
    List (Int × ℚ) → List RetDoc → Except RAGError (List RetDoc)
  | [], acc => .ok acc
  | (idx, dist) :: rest, acc =>
    if idx < (documents.length : Int) then
      match pyGet documents idx with
      | some doc => retLoop documents rest (acc ++ [⟨doc, dist⟩])
      | none => .error .documentsIndexError
    else retLoop documents rest acc

/-- `RAGSystem.similarity_search(query, k)` (`rag_system.py` lines
97-118), with the state threaded explicitly (the method performs no
assignment to `self`, so the returned state is the input state). -/
def similarity_search (encode : Str → Vec) (st : RAGState) (query : Str)
    (k : Nat) : Except RAGError (List RetDoc × RAGState) :=
  match st.vector_store with
  | none => .error .vectorStoreMissing
  | some ix =>
    let pairs := ix.searchPairs (encode query) k
    (retLoop st.documents (pairs.map fun p => (p.2, p.1)) []).map
      (fun res => (res, st))

/-- Failure of the external LLM call `self.llm.invoke(prompt)`. -/
inductive GenError where
  | generationFailed
deriving DecidableEq

/-- One context block `f"Section: ...\nContent: ..."`
(`rag_system.py` line 123). -/
def contextBlock (d : RetDoc) : Str :=
  strOf "Section: " ++ d.doc.section_title ++
  strOf "\nContent: " ++ d.doc.content

/-- `"\n\n".join(...)` over the context blocks (lines 122-125). -/
def buildContext (context_docs : List RetDoc) : Str :=
  (((context_docs.map contextBlock).intersperse (strOf "\n\n"))).flatten

/-- The generation prompt f-string (`rag_system.py` lines 127-136). -/
def buildPrompt (query : Str) (context : Str) : Str :=
  strOf "\n        Based on the following legal context, provide a detailed response to the query.\n        \n        Legal Context:\n        " ++
  context ++
  strOf "\n        \n        Query: " ++ query ++
  strOf "\n        \n        Please provide a comprehensive legal analysis based on the provided context.\n        "

/-- `RAGSystem.generate_response(query, context_docs)` (`rag_system.py`
lines 120-143): the LLM answer on success; on any exception the error is
logged and the plain string `"Error generating response"` is returned. -/
def generate_response (llm : Str → Except GenError Str) (query : Str)
    (context_docs : List RetDoc) : Str :=
  match llm (buildPrompt query (buildContext context_docs)) with
  | .ok response => response
  | .error _ => strOf "Error generating response"

/-! Concrete fixtures used by witnesses and counterexamples. -/

/-- A concrete chunk. -/
def c0 : Chunk := ⟨strOf "alpha", strOf "SEC", 1, strOf "SEC_0"⟩

/-- A concrete encoder mapping every string to the 1-dimensional zero
vector. -/
def encZero : Str → Vec := fun _ => [0]

/-- A built state holding one chunk and a matching one-vector index. -/
def stOne : RAGState := { vector_store := some ⟨1, [[0]]⟩, documents := [c0] }

/-- An index with two vectors, for the mismatched-storage counterexample. -/
def ixTwo : FaissIndex := ⟨1, [[0], [1]]⟩

/-- Persisted storage whose index has 2 slots but whose corpus has 1
chunk (a simulated partial write). -/
def stgBad : Storage := ⟨some ixTwo, some [c0]⟩

/-! Helper lemmas for the retrieval loop. -/

theorem pyGet_mem {l : List Chunk} {i : Int} {c : Chunk}
    (h : pyGet l i = some c) : c ∈ l := by
  unfold pyGet at h
  split at h
  · exact List.get?_mem h
  · split at h
    · exact List.get?_mem h
    · exact absurd h (by simp)

theorem retLoop_ok_mem {docs : List Chunk} :
    ∀ {L : List (Int × ℚ)} {acc res : List RetDoc},
      retLoop docs L acc = .ok res →
      ∀ r ∈ res, r ∈ acc ∨ r.doc ∈ docs := by
  intro L
  induction L with
  | nil =>
    intro acc res h r hr
    simp only [retLoop, Except.ok.injEq] at h
    exact Or.inl (h ▸ hr)
  | cons p rest ih =>
    intro acc res h r hr
    obtain ⟨idx, dist⟩ := p
    simp only [retLoop] at h
    split at h
    · split at h
      · rename_i doc hdoc
        rcases ih h r hr with hacc | hdocs
        · rcases List.mem_append.mp hacc with h1 | h1
          · exact Or.inl h1
          · have : r = ⟨doc, dist⟩ := by simpa using h1
            exact Or.inr (this ▸ pyGet_mem hdoc)
        · exact Or.inr hdocs
      · exact absurd h (by simp)
    · exact ih h r hr

/-- `similarity_search` succeeding means the retrieval loop succeeded and
the state passed through unchanged. -/
theorem similarity_search_ok {encode : Str → Vec} {st : RAGState}
    {q : Str} {k : Nat} {res : List RetDoc} {st' : RAGState}
    (h : similarity_search encode st q k = .ok (res, st')) :
    st' = st ∧ ∃ ix, st.vector_store = some ix ∧
      retLoop st.documents
        ((ix.searchPairs (encode q) k).map fun p => (p.2, p.1)) [] = .ok res := by
  unfold similarity_search at h
  cases hvs : st.vector_store with
  | none => rw [hvs] at h; exact absurd h (by simp)
  | some ix =>
    rw [hvs] at h
    dsimp only at h
    cases hr : retLoop st.documents
        ((ix.searchPairs (encode q) k).map fun p => (p.2, p.1)) [] with
    | error e => rw [hr] at h; exact absurd h (by simp [Except.map])
    | ok res0 =>
      rw [hr] at h
      simp only [Except.map, Except.ok.injEq, Prod.mk.injEq] at h
      exact ⟨h.2.symm, ix, rfl, by rw [hr, h.1]⟩

/-! Claim theorems. -/

/-- C3: for every query and every `k`, `similarity_search` invoked on a
state whose index has not been built or loaded (`self.vector_store` is
`None`, as after `__init__`) fails with the not-initialized error — the
spec's `RetrievalError` — and never returns an empty result list;
moreover an empty-but-initialized index cannot even be built, since
`create_vector_store` on the fresh state fails. -/
theorem C3_uninitialized_search_fails (encode : Str → Vec) (st : RAGState)
    (q : Str) (k : Nat) (h : st.vector_store = none) :
    similarity_search encode st q k = .error .vectorStoreMissing ∧
    (∀ e : Str → Vec, create_vector_store e initState = .error .noDocuments) := by
  constructor
  · unfold similarity_search
    rw [h]
  · intro e
    rfl

/-- C3 witness: the freshly initialized state concretely fails a `k = 5`
search with the typed error. -/
theorem C3_witness :
    initState.vector_store = none ∧
    similarity_search encZero initState (strOf "query") 5 =
      .error .vectorStoreMissing :=
  ⟨rfl, (C3_uninitialized_search_fails encZero initState (strOf "query") 5 rfl).1⟩

/-- C9: `similarity_search` is read-only — the state it returns is exactly
the input state (no field of `self` is assigned), and every returned
result is a fresh record (`doc.copy()` plus a score) whose chunk is one of
the stored corpus records, which are themselves untouched. -/
theorem C9_search_readonly (encode : Str → Vec) (st : RAGState) (q : Str)
    (k : Nat) (res : List RetDoc) (st' : RAGState)
    (h : similarity_search encode st q k = .ok (res, st')) :
    st' = st ∧ ∀ r ∈ res, r.doc ∈ st.documents := by
  obtain ⟨hst, ix, hix, hr⟩ := similarity_search_ok h
  refine ⟨hst, fun r hrmem => ?_⟩
  rcases retLoop_ok_mem hr r hrmem with hacc | hdocs
  · exact absurd hacc (by simp)
  · exact hdocs

/-- C9 witness: a concrete one-chunk search returns the input state and
results drawn from the stored corpus. -/
theorem C9_witness :
    stOne = stOne ∧
    ∀ r ∈ [RetDoc.mk c0 (dist2 [0] [0])], r.doc ∈ stOne.documents :=
  C9_search_readonly encZero stOne (strOf "q") 1
    [RetDoc.mk c0 (dist2 [0] [0])] stOne rfl

/-- C2 counterexample: a persisted pair whose index has 2 slots but whose
corpus has 1 chunk loads successfully (`load` returns `True`), leaving a
store whose index and corpus lengths disagree — the claimed
`IndexLoadError` never happens. -/
theorem C2_counterexample :
    (load_vector_store stgBad initState).1 = true ∧
    (load_vector_store stgBad initState).2.vector_store = some ixTwo ∧
    ixTwo.ntotal = 2 ∧
    (load_vector_store stgBad initState).2.documents.length = 1 :=
  ⟨rfl, rfl, rfl, rfl⟩

/-- C2 amended: `load_vector_store` performs no index/corpus consistency
check — whenever both artifacts are readable it succeeds and installs
them as-is, mismatched or not; a missing index artifact merely makes it
return `False` (no `IndexLoadError` is raised). -/
theorem C2_amended_load_no_check :
    (∀ (stg : Storage) (ix : FaissIndex) (docs : List Chunk) (st : RAGState),
      stg.faiss_index = some ix → stg.documents_pkl = some docs →
      load_vector_store stg st =
        (true, { vector_store := some ix, documents := docs })) ∧
    (∀ (dp : Option (List Chunk)) (st : RAGState),
      load_vector_store ⟨none, dp⟩ st = (false, st)) := by
  constructor
  · intro stg ix docs st h1 h2
    obtain ⟨f, d⟩ := stg
    simp only at h1 h2
    subst h1; subst h2
    rfl
  · intro dp st
    rfl

/-- C2 witness: the mismatched concrete storage loads successfully via the
amended statement. -/
theorem C2_witness :
    stgBad.faiss_index = some ixTwo ∧
    load_vector_store stgBad initState =
      (true, { vector_store := some ixTwo, documents := [c0] }) :=
  ⟨rfl, C2_amended_load_no_check.1 stgBad ixTwo [c0] initState rfl rfl⟩

/-- C4 counterexample: when the LLM call raises, `generate_response`
returns the ordinary string `"Error generating response"` — the failure is
logged and swallowed, not surfaced as a typed error to the caller. -/
theorem C4_counterexample :
    generate_response (fun _ => .error .generationFailed) (strOf "q") [] =
      strOf "Error generating response" := rfl

/-- C4 amended: every generation failure is swallowed into a
log-and-continue that returns the fixed ordinary text value
`"Error generating response"`; no typed error reaches the caller. -/
theorem C4_amended_swallowed (llm : Str → Except GenError Str) (query : Str)
    (context_docs : List RetDoc) (e : GenError)
    (h : llm (buildPrompt query (buildContext context_docs)) = .error e) :
    generate_response llm query context_docs =
      strOf "Error generating response" := by
  unfold generate_response
  rw [h]

/-- C4 witness: a concretely failing LLM produces the swallowed string. -/
theorem C4_witness :
    (fun _ => (.error .generationFailed : Except GenError Str))
        (buildPrompt (strOf "q") (buildContext [])) = .error .generationFailed ∧
    generate_response (fun _ => .error .generationFailed) (strOf "q") [] =
      strOf "Error generating response" :=
  ⟨rfl, C4_amended_swallowed (fun _ => .error .generationFailed) (strOf "q")
    [] .generationFailed rfl⟩

/-- C5: persisting a built store and loading it back (into any prior
state) succeeds and restores exactly the index and corpus, so
`similarity_search` after the round trip returns identical results —
same slots, same order, same resolved chunks — as before it. -/
theorem C5_save_load_roundtrip (st : RAGState) (ix : FaissIndex)
    (h : st.vector_store = some ix) :
    save_vector_store st = .ok ⟨some ix, some st.documents⟩ ∧
    ∀ (st0 : RAGState) (encode : Str → Vec) (q : Str) (k : Nat),
      (load_vector_store ⟨some ix, some st.documents⟩ st0).1 = true ∧
      similarity_search encode
          (load_vector_store ⟨some ix, some st.documents⟩ st0).2 q k =
        similarity_search encode st q k := by
  have hst : st = ⟨some ix, st.documents⟩ := by
    obtain ⟨v, d⟩ := st
    simp only at h
    rw [h]
  constructor
  · unfold save_vector_store
    rw [h]
  · intro st0 encode q k
    refine ⟨rfl, ?_⟩
    have hload : (load_vector_store ⟨some ix, some st.documents⟩ st0).2 =
        { vector_store := some ix, documents := st.documents } := rfl
    rw [hload, ← hst]

/-- C5 witness: the round trip on a concrete one-chunk store. -/
theorem C5_witness :
    stOne.vector_store = some ⟨1, [[0]]⟩ ∧
    save_vector_store stOne = .ok ⟨some ⟨1, [[0]]⟩, some [c0]⟩ ∧
    similarity_search encZero
        (load_vector_store ⟨some ⟨1, [[0]]⟩, some [c0]⟩ initState).2
        (strOf "q") 1 =
      similarity_search encZero stOne (strOf "q") 1 :=
  ⟨rfl, (C5_save_load_roundtrip stOne ⟨1, [[0]]⟩ rfl).1,
    ((C5_save_load_roundtrip stOne ⟨1, [[0]]⟩ rfl).2 initState encZero
      (strOf "q") 1).2⟩

/-- Folding an append-one-element step is the same as appending the map. -/
theorem foldl_append_map {α β : Type} (f : α → β) :
    ∀ (l : List α) (acc : List β),
      l.foldl (fun a x => a ++ [f x]) acc = acc ++ l.map f := by
  intro l
  induction l with
  | nil => intro acc; simp
  | cons x t ih => intro acc; simp [ih]

/-- The chunk records derived from one section, in order. -/
def chunksOf (sec : SectionRec) : List Chunk :=
  (split_text sec.content).enum.map fun p => mkChunkRec sec p.1 p.2

theorem foldl_sections_eq :
    ∀ (l : List SectionRec) (acc : List Chunk),
      l.foldl (fun acc sec =>
        (split_text sec.content).enum.foldl
          (fun acc2 p => acc2 ++ [mkChunkRec sec p.1 p.2]) acc) acc
      = acc ++ (l.map chunksOf).flatten := by
  intro l
  induction l with
  | nil => intro acc; simp
  | cons sec t ih =>
    intro acc
    simp only [List.foldl_cons, List.map_cons, List.flatten_cons]
    rw [foldl_append_map (fun p : Nat × Str => mkChunkRec sec p.1 p.2)]
    rw [ih]
    simp [chunksOf, List.append_assoc]

/-- C10: `process_documents` replaces the stored corpus with exactly the
chunks derived from the given sections — in section order, with
per-section chunk order preserved, independent of any prior corpus (no
accumulation across runs) — and each record carries its section's title
and page number plus the per-section zero-based ordinal embedded in
`chunk_id = f"{title}_{i}"` (see `mkChunkRec`). -/
theorem C10_process_documents_replaces (st : RAGState)
    (sections : List SectionRec) :
    (process_documents st sections).2.documents =
      (process_documents st sections).1 ∧
    (process_documents st sections).2.vector_store = st.vector_store ∧
    (process_documents st sections).1 = (sections.map chunksOf).flatten ∧
    ∀ st2 : RAGState,
      (process_documents st2 sections).1 = (process_documents st sections).1 := by
  refine ⟨rfl, rfl, ?_, fun st2 => rfl⟩
  unfold process_documents
  simpa using foldl_sections_eq sections []

/-! Helper lemmas for the text splitter (claim C8). -/

/-- Total character count of a list of strings. -/
def sumLen (l : List Str) : Nat := (l.map List.length).sum

theorem sumLen_nil : sumLen [] = 0 := rfl

theorem sumLen_cons (s : Str) (l : List Str) :
    sumLen (s :: l) = s.length + sumLen l := by
  simp [sumLen]

theorem sumLen_append (l1 l2 : List Str) :
    sumLen (l1 ++ l2) = sumLen l1 + sumLen l2 := by
  simp [sumLen]

theorem mem_length_le_sumLen {s : Str} : ∀ {l : List Str}, s ∈ l →
    s.length ≤ sumLen l := by
  intro l
  induction l with
  | nil => intro h; simp at h
  | cons x t ih =>
    intro h
    rw [sumLen_cons]
    rcases List.mem_cons.mp h with rfl | h
    · omega
    · have := ih h
      omega

theorem sumLen_eq_length_flatten (l : List Str) :
    sumLen l = l.flatten.length := by
  simp [sumLen]

/-- Splitting and rejoining on a non-empty separator reconstructs the
text. -/
theorem splitOnSub_reconstruct (sep : Str) (hsep : sep ≠ []) :
    ∀ (n : Nat) (text : Str), text.length ≤ n →
      ∃ p ps, splitOnSub sep text = p :: ps ∧
        p ++ (ps.map (fun q => sep ++ q)).flatten = text := by
  intro n
  induction n with
  | zero =>
    intro text hlen
    have htext : text = [] := List.eq_nil_of_length_eq_zero (Nat.le_zero.mp hlen)
    subst htext
    unfold splitOnSub
    rw [dif_neg hsep]
    split
    · exact ⟨[], [], rfl, by simp⟩
    · rename_i i hf
      simp [findSub, hsep] at hf
  | succ n ih =>
    intro text hlen
    unfold splitOnSub
    rw [dif_neg hsep]
    split
    · exact ⟨text, [], rfl, by simp⟩
    · rename_i i hf
      have hb := findSub_some_bound hsep hf
      have hs1 : 1 ≤ sep.length := by
        cases sep with
        | nil => exact absurd rfl hsep
        | cons a t => simp
      have hrest : (text.drop (i + sep.length)).length ≤ n := by
        rw [List.length_drop]
        omega
      obtain ⟨q, qs, hq, hqrec⟩ := ih (text.drop (i + sep.length)) hrest
      refine ⟨text.take i, q :: qs, by rw [hq], ?_⟩
      have hflat : ((q :: qs).map (fun r => sep ++ r)).flatten =
          sep ++ (q ++ (qs.map (fun r => sep ++ r)).flatten) := by
        simp
      rw [hflat, hqrec]
      have := findSub_decomp hf
      calc text.take i ++ (sep ++ text.drop (i + sep.length))
          = text.take i ++ sep ++ text.drop (i + sep.length) := by
            rw [List.append_assoc]
        _ = text := this

theorem flatten_filter_ne_nil : ∀ l : List Str,
    (l.filter (fun s => !s.isEmpty)).flatten = l.flatten := by
  intro l
  induction l with
  | nil => rfl
  | cons s t ih =>
    by_cases hs : s.isEmpty
    · have : s = [] := by simpa [List.isEmpty_iff] using hs
      subst this
      simpa using ih
    · simp only [List.filter_cons, hs]
      simpa using congrArg (s ++ ·) ih

theorem flatten_map_singleton : ∀ text : Str,
    (text.map (fun c => [c])).flatten = text := by
  intro text
  induction text with
  | nil => rfl
  | cons c t ih => simpa using ih

/-- The pieces produced by `splitWithSep` concatenate back to the text. -/
theorem splitWithSep_flatten (sep text : Str) :
    (splitWithSep sep text).flatten = text := by
  unfold splitWithSep
  by_cases hsep : sep = []
  · subst hsep
    rw [if_pos rfl]
    rw [flatten_filter_ne_nil]
    exact flatten_map_singleton text
  · rw [if_neg hsep]
    obtain ⟨p, ps, hsplit, hrec⟩ :=
      splitOnSub_reconstruct sep hsep text.length text (Nat.le_refl _)
    rw [hsplit]
    rw [flatten_filter_ne_nil]
    simpa using hrec

/-- With the empty separator every piece is a single character. -/
theorem splitWithSep_nil_len {text : Str} :
    ∀ s ∈ splitWithSep [] text, s.length = 1 := by
  intro s hs
  unfold splitWithSep at hs
  rw [if_pos rfl] at hs
  have hs' := List.mem_of_mem_filter hs
  rcases List.mem_map.mp hs' with ⟨c, _, rfl⟩
  rfl

/-- Specification of the pop loop with the empty merge separator: the
total stays in sync with the buffer, ends at most the overlap, and ends
small enough to accept the incoming split (or empty). -/
theorem mergePop_zero_spec (cs co dl : Nat) :
    ∀ (cur : List Str) (total : Nat), total = sumLen cur →
      (mergePop cs co 0 dl cur total).2 =
        sumLen (mergePop cs co 0 dl cur total).1 ∧
      (mergePop cs co 0 dl cur total).2 ≤ co ∧
      ((mergePop cs co 0 dl cur total).2 + dl ≤ cs ∨
        (mergePop cs co 0 dl cur total).2 = 0) := by
  intro cur
  induction cur with
  | nil =>
    intro total htot
    rw [sumLen_nil] at htot
    subst htot
    exact ⟨rfl, Nat.zero_le co, Or.inr rfl⟩
  | cons d rest ih =>
    intro total htot
    rw [sumLen_cons] at htot
    have heq : mergePop cs co 0 dl (d :: rest) total =
        if total > co ∨
            (total + dl + (if (d :: rest).length > 0 then 0 else 0) > cs ∧
              total > 0) then
          mergePop cs co 0 dl rest
            (total - (d.length + if rest.length > 0 then 0 else 0))
        else (d :: rest, total) := rfl
    by_cases hcond : total > co ∨
        (total + dl + (if (d :: rest).length > 0 then 0 else 0) > cs ∧
          total > 0)
    · rw [heq, if_pos hcond]
      have harg : total - (d.length + if rest.length > 0 then 0 else 0) =
          sumLen rest := by
        rw [ite_self]
        omega
      exact ih _ harg
    · rw [heq, if_neg hcond]
      push_neg at hcond
      refine ⟨htot, hcond.1, ?_⟩
      rcases Nat.eq_zero_or_pos total with h0 | hpos
      · exact Or.inr h0
      · left
        by_contra hgt
        push_neg at hgt
        have hz := hcond.2 (by rw [ite_self]; omega)
        omega

theorem sumLen_intersperse_nil : ∀ docs : List Str,
    sumLen (docs.intersperse []) = sumLen docs
  | [] => rfl
  | [_] => rfl
  | a :: b :: t => by
    rw [List.intersperse_cons_cons]
    rw [sumLen_cons, sumLen_cons, sumLen_cons]
    have h := sumLen_intersperse_nil (b :: t)
    simp only [List.length_nil]
    omega

/-- `joinDocs` with the empty separator yields at most the total length
of its inputs. -/
theorem joinDocs_zero_length {docs : List Str} :
    ∀ s ∈ (joinDocs [] docs).toList, s.length ≤ sumLen docs := by
  intro s hs
  unfold joinDocs at hs
  dsimp only at hs
  split at hs
  · simp at hs
  · have hs' : s = pyStrip (docs.intersperse []).flatten := by simpa using hs
    subst hs'
    calc (pyStrip (docs.intersperse []).flatten).length
        ≤ (docs.intersperse []).flatten.length := pyStrip_length_le _
      _ = sumLen (docs.intersperse []) := (sumLen_eq_length_flatten _).symm
      _ = sumLen docs := sumLen_intersperse_nil docs

/-- Invariant of the merge fold with the empty separator: the running
total matches the buffer, never exceeds the chunk size, and all emitted
chunks are bounded. -/
def MergeInv (cs : Nat) (st : MergeSt) : Prop :=
  st.total = sumLen st.current_doc ∧ st.total ≤ cs ∧
  ∀ d ∈ st.docs, d.length ≤ cs

theorem mergeStep_zero_inv {cs co : Nat} {st : MergeSt} {d : Str}
    (hd : d.length < cs) (h : MergeInv cs st) :
    MergeInv cs (mergeStep cs co [] st d) := by
  obtain ⟨hsync, hle, hdocs⟩ := h
  unfold mergeStep MergeInv
  dsimp only
  simp only [List.length_nil, ite_self]
  by_cases hflush : st.total + d.length + 0 > cs
  · rw [if_pos hflush]
    by_cases hcur : st.current_doc.length > 0
    · rw [if_pos hcur]
      dsimp only
      obtain ⟨hsync', hco', hfit'⟩ :=
        mergePop_zero_spec cs co d.length st.current_doc st.total hsync
      refine ⟨?_, ?_, ?_⟩
      · rw [sumLen_append, sumLen_cons, sumLen_nil]
        omega
      · omega
      · intro x hx
        rcases List.mem_append.mp hx with hx1 | hx2
        · exact hdocs x hx1
        · have := joinDocs_zero_length x hx2
          omega
    · rw [if_neg hcur]
      have hcurnil : st.current_doc = [] := by
        cases hcd : st.current_doc with
        | nil => rfl
        | cons a t => rw [hcd] at hcur; simp at hcur
      rw [hcurnil, sumLen_nil] at hsync
      omega
  · rw [if_neg hflush]
    refine ⟨?_, by omega, hdocs⟩
    rw [sumLen_append, sumLen_cons, sumLen_nil]
    omega

theorem mergeFold_zero_inv {cs co : Nat} :
    ∀ (splits : List Str) (st : MergeSt),
      (∀ s ∈ splits, s.length < cs) → MergeInv cs st →
      MergeInv cs (splits.foldl (mergeStep cs co []) st) := by
  intro splits
  induction splits with
  | nil => intro st _ h; exact h
  | cons s t ih =>
    intro st hall h
    rw [List.foldl_cons]
    exact ih _ (fun x hx => hall x (List.mem_cons_of_mem s hx))
      (mergeStep_zero_inv (hall s (List.mem_cons_self s t)) h)

/-- Each chunk emitted by the merge phase is bounded by the chunk size
when every incoming split is. -/
theorem mergeSplits_zero_le {cs co : Nat} {splits : List Str}
    (hall : ∀ s ∈ splits, s.length < cs) :
    ∀ c ∈ mergeSplits cs co [] splits, c.length ≤ cs := by
  intro c hc
  unfold mergeSplits at hc
  dsimp only at hc
  have hinv : MergeInv cs (splits.foldl (mergeStep cs co []) ⟨[], [], 0⟩) :=
    mergeFold_zero_inv splits ⟨[], [], 0⟩ hall
      ⟨rfl, Nat.zero_le cs, by simp⟩
  rcases List.mem_append.mp hc with h1 | h2
  · exact hinv.2.2 c h1
  · have h3 := joinDocs_zero_length c h2
    have h4 := hinv.1
    have h5 := hinv.2.1
    omega

/-- When the splits fit in one chunk, the merge fold accumulates them all
without flushing. -/
theorem mergeFold_zero_small {cs co : Nat} :
    ∀ (l : List Str) (st : MergeSt), st.docs = [] →
      st.total = sumLen st.current_doc → st.total + sumLen l ≤ cs →
      l.foldl (mergeStep cs co []) st =
        ⟨[], st.current_doc ++ l, st.total + sumLen l⟩ := by
  intro l
  induction l with
  | nil =>
    intro st hdocs hsync _
    obtain ⟨d0, c0', t0⟩ := st
    simp only at hdocs hsync
    subst hdocs
    simp [sumLen_nil]
  | cons d t ih =>
    intro st hdocs hsync hsum
    rw [sumLen_cons] at hsum
    have hstep : mergeStep cs co [] st d =
        ⟨st.docs, st.current_doc ++ [d], st.total + d.length + 0⟩ := by
      unfold mergeStep
      dsimp only
      simp only [List.length_nil, ite_self]
      rw [if_neg (by omega)]
    rw [List.foldl_cons, hstep]
    have hres := ih ⟨st.docs, st.current_doc ++ [d], st.total + d.length + 0⟩
      hdocs (by dsimp only; rw [sumLen_append, sumLen_cons, sumLen_nil]; omega)
      (by dsimp only; omega)
    rw [hres]
    dsimp only
    simp only [MergeSt.mk.injEq]
    refine ⟨trivial, ?_, ?_⟩
    · simp only [List.append_assoc, List.singleton_append]
    · rw [sumLen_cons]
      omega

/-- When the whole text fits in one chunk, the merge emits exactly the
stripped join. -/
theorem mergeSplits_zero_small {cs co : Nat} {splits : List Str}
    (hsum : sumLen splits ≤ cs) :
    mergeSplits cs co [] splits = (joinDocs [] splits).toList := by
  unfold mergeSplits
  rw [mergeFold_zero_small splits ⟨[], [], 0⟩ rfl rfl
    (show (0 : Nat) + sumLen splits ≤ cs by omega)]
  simp

theorem flatten_intersperse_nil : ∀ l : List Str,
    (l.intersperse ([] : Str)).flatten = l.flatten
  | [] => rfl
  | [_] => rfl
  | a :: b :: t => by
    rw [List.intersperse_cons_cons]
    have h := flatten_intersperse_nil (b :: t)
    simp only [List.flatten_cons] at h ⊢
    rw [h]
    simp

theorem chooseSep_spec {seps : List Str} (text : Str) (hmem : [] ∈ seps) :
    (chooseSep seps text).1 = [] ∨
    ([] ∈ (chooseSep seps text).2 ∧
      (chooseSep seps text).2.length < seps.length) := by
  unfold chooseSep
  cases hl : chooseSepLoop seps text with
  | none =>
    have := chooseSepLoop_isSome text hmem
    rw [hl] at this
    simp at this
  | some v =>
    simp only [Option.getD_some]
    have h1 := chooseSepLoop_empty_mem
      (show chooseSepLoop seps text = some (v.1, v.2) by rw [hl]) hmem
    have h2 := chooseSepLoop_length
      (show chooseSepLoop seps text = some (v.1, v.2) by rw [hl])
    rcases h1 with h | h
    · exact Or.inl h
    · exact Or.inr ⟨h, h2⟩

/-- If the fold step appends every encountered split to the pending
buffer, folding just appends the splits. -/
theorem foldl_allgood_mem {cs : Nat}
    {f : List Str × List Str → Str → List Str × List Str} :
    ∀ (splits : List Str),
      (∀ acc s, s ∈ splits → s.length < cs → f acc s = (acc.1, acc.2 ++ [s])) →
      (∀ s ∈ splits, s.length < cs) →
      ∀ acc, splits.foldl f acc = (acc.1, acc.2 ++ splits) := by
  intro splits
  induction splits with
  | nil => intro _ _ acc; simp
  | cons s t ih =>
    intro hgood hall acc
    rw [List.foldl_cons,
      hgood acc s (List.mem_cons_self s t) (hall s (List.mem_cons_self s t))]
    rw [ih (fun a x hx => hgood a x (List.mem_cons_of_mem s hx))
      (fun x hx => hall x (List.mem_cons_of_mem s hx))]
    simp

/-- Invariant of the `_split_text` fold: if good splits are buffered and
bad splits flush the buffer and contribute only bounded chunks, then all
accumulated chunks are bounded and the buffer holds only good splits. -/
theorem foldl_bound_mem {cs : Nat} (co : Nat)
    {f : List Str × List Str → Str → List Str × List Str} :
    ∀ (splits : List Str),
      (∀ acc s, s ∈ splits → s.length < cs → f acc s = (acc.1, acc.2 ++ [s])) →
      (∀ acc s, s ∈ splits → ¬ s.length < cs →
        ∃ extra, (∀ x ∈ extra, x.length ≤ cs) ∧
          f acc s = ((acc.1 ++
            (if acc.2.length > 0 then mergeSplits cs co [] acc.2 else [])) ++
              extra, [])) →
      ∀ acc, (∀ x ∈ acc.1, x.length ≤ cs) → (∀ g ∈ acc.2, g.length < cs) →
        (∀ x ∈ (splits.foldl f acc).1, x.length ≤ cs) ∧
        (∀ g ∈ (splits.foldl f acc).2, g.length < cs) := by
  intro splits
  induction splits with
  | nil => intro _ _ acc h1 h2; exact ⟨h1, h2⟩
  | cons s t ih =>
    intro hgood hbad acc h1 h2
    rw [List.foldl_cons]
    by_cases hs : s.length < cs
    · rw [hgood acc s (List.mem_cons_self s t) hs]
      refine ih (fun a x hx => hgood a x (List.mem_cons_of_mem s hx))
        (fun a x hx => hbad a x (List.mem_cons_of_mem s hx)) _ h1 ?_
      intro g hg
      rcases List.mem_append.mp hg with hg1 | hg2
      · exact h2 g hg1
      · rw [List.mem_singleton] at hg2
        exact hg2 ▸ hs
    · obtain ⟨extra, hex, heq⟩ := hbad acc s (List.mem_cons_self s t) hs
      rw [heq]
      refine ih (fun a x hx => hgood a x (List.mem_cons_of_mem s hx))
        (fun a x hx => hbad a x (List.mem_cons_of_mem s hx)) _ ?_ (by simp)
      intro x hx
      rcases List.mem_append.mp hx with hx1 | hx2
      · rcases List.mem_append.mp hx1 with hy1 | hy2
        · exact h1 x hy1
        · rcases hite : (if acc.2.length > 0 then
              mergeSplits cs co [] acc.2 else []) with _ | _
          · rw [hite] at hy2; simp at hy2
          · rw [hite] at hy2
            have : x ∈ mergeSplits cs co [] acc.2 := by
              by_cases hpos : acc.2.length > 0
              · rw [if_pos hpos] at hite; rw [hite]; exact hy2
              · rw [if_neg hpos] at hite; simp at hite
            exact mergeSplits_zero_le h2 x this
      · exact hex x hx2

/-- A member of an if-then-else whose else branch is empty is a member of
the then branch. -/
theorem mem_of_mem_ite_nil {α : Type} {c : α} {p : Prop} [Decidable p]
    {l : List α} (h : c ∈ if p then l else []) : c ∈ l := by
  split at h
  · exact h
  · simp at h

/-- Every chunk produced by `_split_text` is at most `cs` characters,
provided the separator list contains the final empty separator (as the
library default does) and `cs ≥ 2`. -/
theorem splitTextAux_le {cs co : Nat} (hcs : 2 ≤ cs) :
    ∀ (n : Nat) (seps : List Str), seps.length ≤ n → [] ∈ seps →
      ∀ (text c : Str), c ∈ splitTextAux cs co seps text → c.length ≤ cs := by
  intro n
  induction n with
  | zero =>
    intro seps hn hmem
    have hnil : seps = [] := List.eq_nil_of_length_eq_zero (Nat.le_zero.mp hn)
    rw [hnil] at hmem
    simp at hmem
  | succ n ih =>
    intro seps hn hmem text c hc
    unfold splitTextAux at hc
    dsimp only at hc
    rcases chooseSep_spec text hmem with hsp | ⟨hns, hnslen⟩
    · rw [hsp] at hc
      have hall : ∀ s ∈ splitWithSep [] text, s.length < cs := by
        intro s hs
        rw [splitWithSep_nil_len s hs]
        omega
      rcases List.mem_append.mp hc with h1 | h1
      · refine (foldl_bound_mem co _ ?_ ?_ ([], []) ?_ ?_).1 c h1
        · intro acc s _ hlen
          rw [if_pos hlen]
        · intro acc s hsmem hlen
          exact (hlen (hall s hsmem)).elim
        · simp
        · simp
      · refine mergeSplits_zero_le ?_ c (mem_of_mem_ite_nil h1)
        refine (foldl_bound_mem co _ ?_ ?_ ([], []) ?_ ?_).2
        · intro acc s _ hlen
          rw [if_pos hlen]
        · intro acc s hsmem hlen
          exact (hlen (hall s hsmem)).elim
        · simp
        · simp
    · have hne : (chooseSep seps text).2 ≠ [] := List.ne_nil_of_mem hns
      have hrec : ∀ (t2 c2 : Str),
          c2 ∈ splitTextAux cs co (chooseSep seps text).2 t2 →
          c2.length ≤ cs :=
        ih (chooseSep seps text).2 (by omega) hns
      rcases List.mem_append.mp hc with h1 | h1
      · refine (foldl_bound_mem co _ ?_ ?_ ([], []) ?_ ?_).1 c h1
        · intro acc s _ hlen
          rw [if_pos hlen]
        · intro acc s _ hlen
          rw [if_neg hlen]
          refine ⟨splitTextAux cs co (chooseSep seps text).2 s,
            fun x hx => hrec s x hx, ?_⟩
          rw [dif_neg hne]
        · simp
        · simp
      · refine mergeSplits_zero_le ?_ c (mem_of_mem_ite_nil h1)
        refine (foldl_bound_mem co _ ?_ ?_ ([], []) ?_ ?_).2
        · intro acc s _ hlen
          rw [if_pos hlen]
        · intro acc s _ hlen
          rw [if_neg hlen]
          refine ⟨splitTextAux cs co (chooseSep seps text).2 s,
            fun x hx => hrec s x hx, ?_⟩
          rw [dif_neg hne]
        · simp
        · simp

/-- A text shorter than the chunk size with visible characters is
returned as the single chunk `text.strip()`. -/
theorem splitTextAux_small {cs co : Nat} (seps : List Str) (text : Str)
    (hlen : text.length < cs) (hne : pyStrip text ≠ []) :
    splitTextAux cs co seps text = [pyStrip text] := by
  unfold splitTextAux
  dsimp only
  have hflat : (splitWithSep (chooseSep seps text).1 text).flatten = text :=
    splitWithSep_flatten _ _
  have hsum : sumLen (splitWithSep (chooseSep seps text).1 text) =
      text.length := by
    rw [sumLen_eq_length_flatten, hflat]
  have hall : ∀ s ∈ splitWithSep (chooseSep seps text).1 text,
      s.length < cs := by
    intro s hs
    have := mem_length_le_sumLen hs
    omega
  rw [foldl_allgood_mem _ (fun acc s _ h => by rw [if_pos h]) hall ([], [])]
  dsimp only
  simp only [List.nil_append]
  have htextne : text ≠ [] := by
    intro h
    rw [h] at hne
    exact hne rfl
  have hpos : (splitWithSep (chooseSep seps text).1 text).length > 0 := by
    cases hsp : splitWithSep (chooseSep seps text).1 text with
    | nil =>
      rw [hsp] at hflat
      simp only [List.flatten_nil] at hflat
      exact absurd hflat.symm htextne
    | cons a t => simp
  rw [if_pos hpos, mergeSplits_zero_small (by omega)]
  unfold joinDocs
  dsimp only
  rw [flatten_intersperse_nil, hflat]
  rw [if_neg hne]
  rfl

/-! Helper lemmas for the section extractor (claim C7). -/

/-- A string containing at least one non-whitespace character. -/
def hasInk (s : Str) : Prop := ∃ c ∈ s, isWsChar c = false

/-- Invariant of the extraction loop: every emitted section has a
non-empty title and body, and the accumulated body text is empty or
contains visible characters. -/
def ExtInv (st : ExtState) : Prop :=
  (∀ sec ∈ st.sections, sec.section_title ≠ [] ∧ sec.content ≠ []) ∧
  (st.current_content = [] ∨ hasInk st.current_content)

theorem emit_inv {st : ExtState} (hinv : ExtInv st) (pn : Nat) :
    ∀ sec ∈ (if st.current_section = [] ∨ st.current_content = []
        then st.sections
        else st.sections ++
          [{ section_title := st.current_section,
             content := pyStrip st.current_content,
             page_number := pn }]),
      sec.section_title ≠ [] ∧ sec.content ≠ [] := by
  intro sec hsec
  split at hsec
  · exact hinv.1 sec hsec
  · rename_i hguard
    push_neg at hguard
    rcases List.mem_append.mp hsec with hmem | hmem
    · exact hinv.1 sec hmem
    · rw [List.mem_singleton] at hmem
      subst hmem
      refine ⟨hguard.1, ?_⟩
      rcases hinv.2 with hc | ⟨c, hcmem, hcw⟩
      · exact absurd hc hguard.2
      · exact pyStrip_ne_nil hcmem hcw

theorem processLine_inv (pn : Nat) (st : ExtState) (l : Str)
    (hinv : ExtInv st) : ExtInv (processLine pn st l) := by
  unfold processLine
  by_cases hline : pyStrip l = []
  · simpa [hline] using hinv
  · rw [if_neg hline]
    by_cases hhead : isHeadingLine (pyStrip l)
    · rw [if_pos hhead]
      refine ⟨?_, Or.inl rfl⟩
      exact emit_inv hinv pn
    · rw [if_neg hhead]
      refine ⟨hinv.1, Or.inr ?_⟩
      cases hps : pyStrip l with
      | nil => exact absurd hps hline
      | cons c cs =>
        refine ⟨c, ?_, pyStrip_head_not_ws hps⟩
        simp [hps]

theorem foldLines_inv (pn : Nat) :
    ∀ (lines : List Str) (st : ExtState), ExtInv st →
      ExtInv (lines.foldl (processLine pn) st) := by
  intro lines
  induction lines with
  | nil => intro st h; exact h
  | cons l t ih => intro st h; exact ih _ (processLine_inv pn st l h)

theorem foldPages_inv :
    ∀ (pagesLines : List (Nat × List Str)) (st : ExtState), ExtInv st →
      ExtInv (pagesLines.foldl processPage st) := by
  intro pagesLines
  induction pagesLines with
  | nil => intro st h; exact h
  | cons pg t ih => intro st h; exact ih _ (foldLines_inv pg.1 pg.2 st h)

/-- Relation between two extraction states that are observationally equal
for the remainder of the run: same emitted sections and same open title,
with full equality required once a title is open. -/
def ExtRel (st1 st2 : ExtState) : Prop :=
  st1.sections = st2.sections ∧
  st1.current_section = st2.current_section ∧
  (st1.current_section ≠ [] → st1 = st2)

theorem ExtRel.refl (st : ExtState) : ExtRel st st := ⟨rfl, rfl, fun _ => rfl⟩

theorem processLine_rel {st1 st2 : ExtState} (pn : Nat) (l : Str)
    (h : ExtRel st1 st2) :
    ExtRel (processLine pn st1 l) (processLine pn st2 l) := by
  obtain ⟨hs, ht, heq⟩ := h
  by_cases htitle : st1.current_section = []
  · have ht2 : st2.current_section = [] := ht ▸ htitle
    unfold processLine
    by_cases hline : pyStrip l = []
    · simpa [hline] using ⟨hs, ht, heq⟩
    · rw [if_neg hline, if_neg hline]
      by_cases hhead : isHeadingLine (pyStrip l)
      · rw [if_pos hhead, if_pos hhead]
        rw [if_pos (Or.inl htitle), if_pos (Or.inl ht2)]
        exact ⟨hs, rfl, fun _ => by rw [hs]⟩
      · rw [if_neg hhead, if_neg hhead]
        exact ⟨hs, ht, fun hne => absurd htitle hne⟩
  · rw [heq htitle]
    exact ExtRel.refl _

theorem foldLines_rel (pn : Nat) :
    ∀ (lines : List Str) {st1 st2 : ExtState}, ExtRel st1 st2 →
      ExtRel (lines.foldl (processLine pn) st1)
        (lines.foldl (processLine pn) st2) := by
  intro lines
  induction lines with
  | nil => intro st1 st2 h; exact h
  | cons l t ih => intro st1 st2 h; exact ih (processLine_rel pn l h)

theorem foldPages_rel :
    ∀ (pagesLines : List (Nat × List Str)) {st1 st2 : ExtState},
      ExtRel st1 st2 →
      ExtRel (pagesLines.foldl processPage st1)
        (pagesLines.foldl processPage st2) := by
  intro pagesLines
  induction pagesLines with
  | nil => intro st1 st2 h; exact h
  | cons pg t ih => intro st1 st2 h; exact ih (foldLines_rel pg.1 pg.2 h)

/-- Processing lines that are not headings never opens a title and never
emits a section. -/
theorem foldLines_no_heading (pn : Nat) :
    ∀ (pre : List Str) (st : ExtState), st.current_section = [] →
      (∀ l ∈ pre, isHeadingLine (pyStrip l) = false) →
      (pre.foldl (processLine pn) st).current_section = [] ∧
      (pre.foldl (processLine pn) st).sections = st.sections := by
  intro pre
  induction pre with
  | nil => intro st h _; exact ⟨h, rfl⟩
  | cons l t ih =>
    intro st h hpre
    have hstep : (processLine pn st l).current_section = [] ∧
        (processLine pn st l).sections = st.sections := by
      unfold processLine
      by_cases hline : pyStrip l = []
      · simp [hline, h]
      · rw [if_neg hline, if_neg (by simp [hpre l (List.mem_cons_self l t)])]
        exact ⟨h, rfl⟩
    have := ih (processLine pn st l) hstep.1
      (fun x hx => hpre x (List.mem_cons_of_mem l hx))
    exact ⟨this.1, this.2.trans hstep.2⟩

theorem extRel_flush {st1 st2 : ExtState} (h : ExtRel st1 st2)
    (lastPage : Nat) :
    (if st1.current_section = [] ∨ st1.current_content = []
      then st1.sections
      else st1.sections ++
        [{ section_title := st1.current_section,
           content := pyStrip st1.current_content,
           page_number := lastPage }]) =
    (if st2.current_section = [] ∨ st2.current_content = []
      then st2.sections
      else st2.sections ++
        [{ section_title := st2.current_section,
           content := pyStrip st2.current_content,
           page_number := lastPage }]) := by
  by_cases htitle : st1.current_section = []
  · rw [if_pos (Or.inl htitle), if_pos (Or.inl (h.2.1 ▸ htitle))]
    exact h.1
  · rw [h.2.2 htitle]

/-- C7: every section emitted by `extract_sections` has a non-empty title
and a non-empty body, and body text occurring before the first heading is
discarded: prepending any heading-free lines to the first page leaves the
extracted sections unchanged. -/
theorem C7_sections_filtered_and_preamble_discarded :
    (∀ (pages : List Page), ∀ sec ∈ extract_sections pages,
      sec.section_title ≠ [] ∧ sec.content ≠ []) ∧
    (∀ (lastPage pn : Nat) (pre rest : List Str)
        (others : List (Nat × List Str)),
      (∀ l ∈ pre, isHeadingLine (pyStrip l) = false) →
      extractSectionsLines lastPage ((pn, pre ++ rest) :: others) =
        extractSectionsLines lastPage ((pn, rest) :: others)) := by
  constructor
  · intro pages sec hsec
    unfold extract_sections extractSectionsLines at hsec
    have hinv : ExtInv ((pages.map fun p =>
        (p.page_number, splitNewlines p.content)).foldl processPage
          ⟨[], [], []⟩) :=
      foldPages_inv _ _ ⟨by simp, Or.inl rfl⟩
    exact emit_inv hinv (lastPageNumber pages) sec hsec
  · intro lastPage pn pre rest others hpre
    unfold extractSectionsLines
    have hsplit : ((pn, pre ++ rest) :: others).foldl processPage ⟨[], [], []⟩ =
        others.foldl processPage
          (rest.foldl (processLine pn) (pre.foldl (processLine pn) ⟨[], [], []⟩)) := by
      simp [processPage, List.foldl_append]
    have hsplit2 : ((pn, rest) :: others).foldl processPage ⟨[], [], []⟩ =
        others.foldl processPage (rest.foldl (processLine pn) ⟨[], [], []⟩) := by
      simp [processPage]
    have hpref := foldLines_no_heading pn pre ⟨[], [], []⟩ rfl hpre
    have hrel0 : ExtRel (pre.foldl (processLine pn) ⟨[], [], []⟩) ⟨[], [], []⟩ :=
      ⟨hpref.2, hpref.1, fun hne => absurd hpref.1 hne⟩
    have hrel := foldPages_rel others (foldLines_rel pn rest hrel0)
    rw [hsplit, hsplit2]
    exact extRel_flush hrel lastPage

/-- C7 witness: a concrete two-page document with a preamble line before
the first heading. -/
theorem C7_witness :
    ((extract_sections [⟨1, strOf "SECTION ONE\nbody text here"⟩]).headD
        ⟨[], [], 0⟩).section_title ≠ [] ∧
    extractSectionsLines 1
      [(1, [strOf "preamble words", strOf "SECTION ONE", strOf "body"])] =
      extractSectionsLines 1 [(1, [strOf "SECTION ONE", strOf "body"])] := by
  constructor
  · have h := (C7_sections_filtered_and_preamble_discarded.1
      [⟨1, strOf "SECTION ONE\nbody text here"⟩]
      ⟨strOf "SECTION ONE", strOf "body text here", 1⟩ (by decide)).1
    intro hcon
    revert hcon
    decide
  · exact C7_sections_filtered_and_preamble_discarded.2 1 1
      [strOf "preamble words"] [strOf "SECTION ONE", strOf "body"] []
      (by decide)

/-- Every scored pair's distance is the distance to some stored vector. -/
theorem mem_scoredOf {ix : FaissIndex} {q : Vec} {x : ℚ × Int}
    (hx : x ∈ scoredOf ix q) : ∃ v ∈ ix.xb, x.1 = dist2 q v := by
  unfold scoredOf at hx
  rcases List.mem_map.mp hx with ⟨p, hp, hpx⟩
  refine ⟨p.2, ?_, by rw [← hpx]⟩
  have := List.mem_enum_iff_get?.mp hp
  exact List.get?_mem this

/-- The scores of a successful retrieval loop form the accumulated scores
followed by a sublist of the incoming distances, in order. -/
theorem retLoop_ok_scores {docs : List Chunk} :
    ∀ {L : List (Int × ℚ)} {acc res : List RetDoc},
      retLoop docs L acc = .ok res →
      ∃ t, t.Sublist (L.map Prod.snd) ∧
        res.map RetDoc.similarity_score =
          acc.map RetDoc.similarity_score ++ t := by
  intro L
  induction L with
  | nil =>
    intro acc res h
    simp only [retLoop, Except.ok.injEq] at h
    exact ⟨[], by simp, by simp [← h]⟩
  | cons p rest ih =>
    intro acc res h
    obtain ⟨idx, dist⟩ := p
    simp only [retLoop] at h
    split at h
    · split at h
      · rcases ih h with ⟨t, ht, hres⟩
        refine ⟨dist :: t, ?_, ?_⟩
        · simpa using List.Sublist.cons₂ dist ht
        · simpa using hres
      · exact absurd h (by simp)
    · rcases ih h with ⟨t, ht, hres⟩
      exact ⟨t, by simpa using List.Sublist.cons dist ht, hres⟩

/-- `distSlotLe` is at least as strong as distance comparison. -/
theorem distSlotLe_fst_le {a b : ℚ × Int} (h : distSlotLe a b) :
    a.1 ≤ b.1 := by
  rcases h with h | ⟨h, _⟩
  · exact le_of_lt h
  · exact le_of_eq h

/-- The real (pre-padding) portion of a faiss search result is sorted by
(distance, slot). -/
theorem searchPairs_top_sorted (ix : FaissIndex) (q : Vec) (k : Nat) :
    List.Sorted distSlotLe
      ((ix.searchPairs q k).take (min k ix.ntotal)) ∧
    (ix.searchPairs q k).take (min k ix.ntotal) =
      (List.insertionSort distSlotLe (scoredOf ix q)).take k := by
  have hlen : ((List.insertionSort distSlotLe (scoredOf ix q)).take k).length
      = min k ix.ntotal := by
    simp [List.length_take, List.length_insertionSort, scoredOf,
      FaissIndex.ntotal]
  have heq : (ix.searchPairs q k).take (min k ix.ntotal) =
      (List.insertionSort distSlotLe (scoredOf ix q)).take k := by
    unfold FaissIndex.searchPairs
    exact List.take_left' hlen
  refine ⟨?_, heq⟩
  rw [heq]
  exact (List.sorted_insertionSort distSlotLe (scoredOf ix q)).sublist
    (List.take_sublist _ _)

/-- C6: when all true distances are within float range (at most
`FLT_MAX`), `similarity_search` results are ordered by non-decreasing
distance: the real portion of the faiss result is sorted by (distance,
slot) — ties broken by the lower slot — the full distance column
(padding included) is non-decreasing, and the returned
`similarity_score` sequence is non-decreasing. -/
theorem C6_results_sorted (encode : Str → Vec) (st : RAGState)
    (ix : FaissIndex) (q : Str) (k : Nat) (res : List RetDoc)
    (st' : RAGState) (hix : st.vector_store = some ix)
    (hb : ∀ v ∈ ix.xb, dist2 (encode q) v ≤ fltMax)
    (h : similarity_search encode st q k = .ok (res, st')) :
    List.Sorted distSlotLe
      ((ix.searchPairs (encode q) k).take (min k ix.ntotal)) ∧
    List.Sorted (· ≤ ·) ((ix.searchPairs (encode q) k).map Prod.fst) ∧
    List.Sorted (· ≤ ·) (res.map RetDoc.similarity_score) := by
  obtain ⟨hsortTop, heqTop⟩ := searchPairs_top_sorted ix (encode q) k
  have htople : ∀ x ∈ (List.insertionSort distSlotLe
      (scoredOf ix (encode q))).take k, x.1 ≤ fltMax := by
    intro x hx
    have hx1 : x ∈ List.insertionSort distSlotLe (scoredOf ix (encode q)) :=
      List.mem_of_mem_take hx
    have hx2 : x ∈ scoredOf ix (encode q) :=
      (List.perm_insertionSort distSlotLe _).mem_iff.mp hx1
    rcases mem_scoredOf hx2 with ⟨v, hv, hxd⟩
    rw [hxd]
    exact hb v hv
  have hcol : List.Sorted (· ≤ ·) ((ix.searchPairs (encode q) k).map Prod.fst) := by
    unfold FaissIndex.searchPairs
    rw [List.map_append, List.map_replicate]
    apply List.pairwise_append.mpr
    refine ⟨?_, ?_, ?_⟩
    · exact List.Pairwise.map Prod.fst (fun a b hab => distSlotLe_fst_le hab)
        ((searchPairs_top_sorted ix (encode q) k).1.sublist
          (by rw [(searchPairs_top_sorted ix (encode q) k).2]))
    · simp
    · intro a ha b hb'
      rcases List.mem_map.mp ha with ⟨x, hx, hxa⟩
      rcases List.eq_of_mem_replicate hb' with rfl
      rw [← hxa]
      exact htople x hx
  refine ⟨hsortTop, hcol, ?_⟩
  obtain ⟨hst, ix0, hix0, hr⟩ := similarity_search_ok h
  rw [hix] at hix0
  cases hix0
  rcases retLoop_ok_scores hr with ⟨t, ht, hres⟩
  have hmap : ((ix.searchPairs (encode q) k).map
      (fun p : ℚ × Int => (p.2, p.1))).map Prod.snd =
      (ix.searchPairs (encode q) k).map Prod.fst := by
    simp [List.map_map, Function.comp]
  rw [hmap] at ht
  rw [hres]
  simpa using hcol.sublist ht

/-- C6 witness: a concrete one-vector search, with the distance bound and
the success equation discharged, yields a sorted score sequence. -/
theorem C6_witness :
    stOne.vector_store = some ⟨1, [[0]]⟩ ∧
    dist2 (encZero (strOf "q")) [0] ≤ fltMax ∧
    List.Sorted (· ≤ ·)
      ([RetDoc.mk c0 (dist2 [0] [0])].map RetDoc.similarity_score) :=
  ⟨rfl, by simp [encZero, dist2, fltMax]; norm_num,
    (C6_results_sorted encZero stOne ⟨1, [[0]]⟩ (strOf "q") 1
      [RetDoc.mk c0 (dist2 [0] [0])] stOne rfl
      (by intro v hv; simp at hv; subst hv
          simp [encZero, dist2, fltMax]; norm_num)
      rfl).2.2⟩

/-- A pair drawn from `enum` carries an element of the list. -/
theorem snd_mem_of_mem_enum {α : Type} {p : Nat × α} {l : List α}
    (hp : p ∈ l.enum) : p.2 ∈ l :=
  List.get?_mem (List.mem_enum_iff_get?.mp hp)

/-- C8 (amended): with the repository configuration
(`chunk_size = 1000`, `chunk_overlap = 200`), every chunk record built by
`process_documents` has content of at most 1000 characters, and a section
body shorter than 1000 characters whose stripped text is non-empty yields
exactly one chunk, the stripped body. (A body that strips to nothing
yields no chunk at all — see the counterexample.) -/
theorem C8_chunk_size_bound :
    (∀ (st : RAGState) (sections : List SectionRec),
      ∀ ch ∈ (process_documents st sections).1, ch.content.length ≤ 1000) ∧
    (∀ text : Str, text.length < 1000 → pyStrip text ≠ [] →
      split_text text = [pyStrip text]) := by
  constructor
  · intro st sections ch hch
    have hform : (process_documents st sections).1 =
        (sections.map chunksOf).flatten := by
      unfold process_documents
      simpa using foldl_sections_eq sections []
    rw [hform] at hch
    rcases List.mem_flatten.mp hch with ⟨l, hl, hchl⟩
    rcases List.mem_map.mp hl with ⟨sec, _, rfl⟩
    unfold chunksOf at hchl
    rcases List.mem_map.mp hchl with ⟨p, hp, rfl⟩
    have hcontent : p.2 ∈ split_text sec.content := snd_mem_of_mem_enum hp
    unfold split_text at hcontent
    exact splitTextAux_le (by omega) 4 _ (by simp) (by decide)
      sec.content p.2 hcontent
  · intro text hlen hne
    exact splitTextAux_small _ text hlen hne

/-- C8 counterexample: a section whose body is empty (shorter than
`chunk_size`) yields zero chunks, not exactly one. -/
theorem C8_counterexample :
    ([] : Str).length < 1000 ∧ split_text [] = [] ∧
    (process_documents initState [⟨strOf "T", [], 1⟩]).1 = [] := by
  refine ⟨by decide, ?_, ?_⟩
  · unfold split_text splitTextAux
    rfl
  · unfold process_documents split_text splitTextAux
    rfl

/-- C8 witness: a concrete short body yields its stripped text as the
single chunk. -/
theorem C8_witness :
    (strOf "  hello world  ").length < 1000 ∧
    pyStrip (strOf "  hello world  ") ≠ [] ∧
    split_text (strOf "  hello world  ") = [pyStrip (strOf "  hello world  ")] :=
  ⟨by decide, by decide,
    C8_chunk_size_bound.2 (strOf "  hello world  ") (by decide) (by decide)⟩

/-- C1 (code bug): with a 1-chunk corpus and `k = 2`, `similarity_search`
returns 2 results, and the second is a duplicate of the only chunk: the
faiss padding slot `-1` passes the `idx < len(self.documents)` guard and
Python negative indexing resolves `documents[-1]` to the last chunk. The
claim (`k` clamped to the corpus size, no repeats) describes the intended
behavior, which the code misses. -/
theorem C1_padding_duplicates :
    stOne.documents.length = 1 ∧
    (similarity_search encZero stOne (strOf "q") 2).map
      (fun r => (r.1.length, r.1.map RetDoc.doc)) = .ok (2, [c0, c0]) :=
  ⟨rfl, rfl⟩

end LegalRAG
